import Mathlib

/-!
Verification development for the collation-to-matrix engine of the
collation-nmf repository (src/py/collation_parser.py).

Modelling conventions.  A Python string is embedded as a list of
characters (`Str`).  A Python dict is embedded as an insertion-ordered
association list, with lookup and assignment (`alGet`, `alSet`) following
dict semantics: assignment overwrites an existing key in place and
otherwise appends at the end.  The floats produced by the parser are
embedded as rational numbers: the parser only forms the values 0, 1 and
1/k and sums of those, and every comparison performed on them
(`>= min_extant`, `> 0`) is exact in the same way for IEEE doubles on the
magnitudes involved, so exact arithmetic is the faithful reading of the
claims checked here.  The TF-IDF reweighting step multiplies by a real
logarithm and is therefore embedded over the reals (and is the only
noncomputable part of the model).
-/

/-- Character list standing for a Python string. -/
abbrev Str := List Char

/-- Shorthand turning a Lean string literal into the model representation. -/
def str (s : String) : Str := s.toList

/-- Python dict lookup: first entry with the given key, if any. -/
def alGet {β : Type} : List (Str × β) → Str → Option β
  | [], _ => none
  | p :: ps, k => if p.1 = k then some p.2 else alGet ps k

/-- Python dict assignment m[k] = v: overwrite the existing entry in
place, otherwise append a new entry at the end (insertion order). -/
def alSet {β : Type} : List (Str × β) → Str → β → List (Str × β)
  | [], k, v => [(k, v)]
  | p :: ps, k, v => if p.1 = k then (k, v) :: ps else p :: alSet ps k v

/-- Lookup with a default value. -/
def alGetD {β : Type} (m : List (Str × β)) (k : Str) (d : β) : β :=
  (alGet m k).getD d

/-- Does the first list begin with the second one (character comparison)? -/
def beginsWith : Str → Str → Bool
  | _, [] => true
  | [], _ => false
  | c :: w, d :: s => c == d && beginsWith w s

/-- Python str.endswith. -/
def endsWith (w s : Str) : Bool := beginsWith w.reverse s.reverse

/-- Python w[:-len(s)], as used for suffix stripping: for the degenerate
empty suffix Python yields the empty string, since w[:-0] is w[:0]. -/
def stripSuffix1 (s w : Str) : Str :=
  if s.length = 0 then [] else w.take (w.length - s.length)

/-- Python str.strip(chars) restricted to the left end. -/
def dropLeading (cs : List Char) (w : Str) : Str :=
  w.dropWhile (fun c => cs.contains c)

/-- Python str.strip(chars) restricted to the right end. -/
def dropTrailing (cs : List Char) (w : Str) : Str :=
  ((w.reverse).dropWhile (fun c => cs.contains c)).reverse

/-- Python str.strip(chars): remove the given characters from both ends. -/
def pyStripChars (cs : List Char) (w : Str) : Str :=
  dropTrailing cs (dropLeading cs w)

/-- Fuel-indexed run of the while loop in the TEI get_base_wit
(collation_parser.py lines 89-97): strip the first configured subwitness
suffix matching the end of the siglum and repeat until none matches.
With every configured suffix nonempty, each iteration shortens the
siglum, so the fuel supplied by `TEI.get_base_wit` reaches the fixed
point exactly as the terminating executions of the Python loop do. -/
def teiLoop (S : List Str) : Nat → Str → Str
  | 0, w => w
  | f + 1, w =>
    match S.find? (fun s => endsWith w s) with
    | none => w
    | some s => teiLoop S f (stripSuffix1 s w)

/-- Embeds tei_collation get_base_wit (collation_parser.py lines 87-98):
strip the "#" pointer marker from both ends (Python strip), then strip
configured subwitness suffixes to a fixed point. -/
def TEI.get_base_wit (S : List Str) (wit : Str) : Str :=
  teiLoop S ((pyStripChars ['#'] wit).length + 1) (pyStripChars ['#'] wit)

/-- One pass of the inner suffix for-loop of the VMR get_base_wit
(collation_parser.py lines 399-402): every configured suffix is tested in
list order against the evolving siglum and stripped whenever it matches
(the Python loop has no break); the flag records whether any strip
happened during the pass. -/
def stripAllPass (S : List Str) (st : Bool × Str) : Bool × Str :=
  S.foldl (fun acc s => if endsWith acc.2 s then (true, stripSuffix1 s acc.2) else acc) st

/-- Length of the match of the regular expression f\d*$ (fehler_pattern,
collation_parser.py line 338) when it matches: the pattern matches
exactly when the maximal run of trailing decimal digits is immediately
preceded by the letter f, and the matched text is that letter together
with the run. -/
def fehlerLen (w : Str) : Option Nat :=
  match (w.reverse.dropWhile (fun c => c.isDigit)).head? with
  | some c =>
    if c = 'f' then some ((w.reverse.takeWhile (fun c => c.isDigit)).length + 1) else none
  | none => none

/-- Fuel-indexed run of the while loop of the VMR get_base_wit
(collation_parser.py lines 397-415): strip configured subwitness
suffixes, then a fehler marker (f plus digits), then a trailing V, and
repeat until none applies. -/
def vmrLoop (S : List Str) : Nat → Str → Str
  | 0, w => w
  | f + 1, w =>
    if (stripAllPass S (false, w)).1 then vmrLoop S f (stripAllPass S (false, w)).2
    else
      match fehlerLen w with
      | some k => vmrLoop S f (w.take (w.length - k))
      | none =>
        if w.getLast? = some 'V' then vmrLoop S f (w.take (w.length - 1)) else w

/-- Embeds vmr_collation get_base_wit (collation_parser.py lines 394-416). -/
def VMR.get_base_wit (S : List Str) (wit : Str) : Str :=
  vmrLoop S (wit.length + 1) wit

/-- Python str.split(sep) with a one-character separator: splits at every
occurrence, keeping empty pieces (ECM reading lists are slash-separated). -/
def pySplitOn (sep : Char) (s : Str) : List Str :=
  s.foldr (fun c acc =>
    if c = sep then [] :: acc
    else match acc with
      | [] => [[c]]
      | a :: as => (c :: a) :: as) [[]]

/-- Python str.split() with no argument: split on whitespace runs,
discarding empty tokens. -/
def pySplitWs (s : Str) : List Str :=
  (s.foldr (fun c acc =>
    if c.isWhitespace then [] :: acc
    else match acc with
      | [] => [[c]]
      | a :: as => (c :: a) :: as) [[]]).filter (fun t => decide (t ≠ []))

/-- Python " ".join. -/
def joinSpace (l : List Str) : Str := List.intercalate [' '] l

/-- Python str.replace(pat, ""): remove every occurrence of pat, scanning
from the left. -/
def removeAll (pat : Str) : Str → Str
  | [] => []
  | c :: rest =>
    if h : pat ≠ [] ∧ beginsWith (c :: rest) pat = true then
      removeAll pat ((c :: rest).drop pat.length)
    else c :: removeAll pat rest
termination_by s => s.length
decreasing_by
  · have hp : 0 < pat.length := List.length_pos.mpr h.1
    simp only [List.length_drop, List.length_cons]
    omega
  · simp only [List.length_cons]
    omega

/-- One reading element of a variation unit: its type attribute (the empty
string when the attribute is absent), its number attribute n, its serialized
text (the serialize method of lines 103-188 only flattens nested markup and is
orthogonal to every claim, so its output is taken as a given field), and the
whitespace-split tokens of its wit attribute (none when the attribute is
absent). -/
structure Rdg where
  rdg_type : Str
  n : Str
  text : Str
  wit : Option (List Str)

/-- One app element of a TEI collation: its xml:id (or n) attribute and its
rdg children in document order. -/
structure App where
  app_id : Str
  rdgs : List Rdg

/-- Parser settings (collation_parser.__init__, collation_parser.py lines
18-26).  The first field embeds the marker stripped from ambiguous reading
numbers; the type sets are kept as lists with membership tests. -/
structure Config where
  ambiguous_rdg_marker : Str
  subwitness_suffixes : List Str
  trivial_reading_types : List Str
  ignored_reading_types : List Str

/-- Reading label " ".join([app_id, rdg_n, rdg_text]) (lines 216 and 235). -/
def rdg_label (appid : Str) (r : Rdg) : Str :=
  appid ++ ' ' :: (r.n ++ ' ' :: r.text)

/-- One step of the first loop of parse_app (lines 207-221): skip ignored and
trivial readings, and record every other non-ambiguous reading both in the
readings_by_number lookup and in the readings list. -/
def pass1step (cfg : Config) (appid : Str) (acc : List (Str × Str) × List Str) (r : Rdg) :
    List (Str × Str) × List Str :=
  if r.rdg_type ∈ cfg.ignored_reading_types ∨ r.rdg_type ∈ cfg.trivial_reading_types then acc
  else if r.rdg_type = str "ambiguous" then acc
  else (alSet acc.1 r.n (rdg_label appid r), acc.2 ++ [rdg_label appid r])

/-- First pass of parse_app: the readings_by_number lookup and the reading
labels appended to self.readings. -/
def pass1 (cfg : Config) (appid : Str) (rdgs : List Rdg) : List (Str × Str) × List Str :=
  rdgs.foldl (pass1step cfg appid) ([], [])

/-- One step of the loop of lines 243-245: a possible reading number found in
the readings_by_number lookup sets the coefficient of its label to 1. -/
def crStep (lookup : List (Str × Str)) (acc : List (Str × ℚ)) (p : Str) : List (Str × ℚ) :=
  match alGet lookup p with
  | some lbl => alSet acc lbl 1
  | none => acc

/-- The loop of lines 243-245 over all possible reading numbers (a dict, so a
repeated label is recorded once). -/
def collectResolved (lookup : List (Str × Str)) (possible : List Str) : List (Str × ℚ) :=
  possible.foldl (crStep lookup) []

/-- Lines 240-252: resolve an ambiguous reading.  The result is empty when no
possible reading is known; otherwise every resolved label gets coefficient
1/k, k the number of distinct resolved labels. -/
def resolveAmbiguous (lookup : List (Str × Str)) (possible : List Str) : List (Str × ℚ) :=
  let c := collectResolved lookup possible
  if c.length = 0 then [] else c.map (fun q => (q.1, (1 : ℚ) / c.length))

/-- Line 241: the slash-separated possible reading numbers of a TEI ambiguous
reading, after stripping the configured marker characters from both ends. -/
def teiPossible (cfg : Config) (n : Str) : List Str :=
  pySplitOn '/' (pyStripChars cfg.ambiguous_rdg_marker n)

/-- Line 484: the slash-separated possible reading labels of a VMR ambiguous
reading, after removing the defective marker "_f" from the reading text. -/
def vmrPossible (text : Str) : List Str :=
  pySplitOn '/' (removeAll (str "_f") text)

/-- Lines 266-269: add each coefficient of the current reading into one
coefficient dict of one witness, creating missing entries at 0 first. -/
def addCoefficients (coeffs m : List (Str × ℚ)) : List (Str × ℚ) :=
  coeffs.foldl (fun acc p => alSet acc p.1 (alGetD acc p.1 0 + p.2)) m

/-- Lines 258-270: distribute the current coefficients dict to every base
witness of the wit list, registering unseen witnesses with an empty dict. -/
def distribute (S : List Str) (coeffs : List (Str × ℚ))
    (rbw : List (Str × List (Str × ℚ))) (ws : List Str) : List (Str × List (Str × ℚ)) :=
  ws.foldl (fun acc w =>
    alSet acc (TEI.get_base_wit S w)
      (addCoefficients coeffs (alGetD acc (TEI.get_base_wit S w) []))) rbw

/-- One step of the second loop of parse_app (lines 224-270).  The running
state is the pair (rdg_coefficients, readings_by_witness).  An ignored reading
is skipped.  A trivial reading keeps the coefficients dict of the previous
non-skipped reading (the code never resets it in that branch).  An ambiguous
reading that resolves to nothing leaves the empty dict and skips distribution
(the continue of line 249); every other reading distributes its dict to its
witnesses, or skips distribution when it has no wit attribute. -/
def pass2step (cfg : Config) (appid : Str) (lookup : List (Str × Str))
    (st : List (Str × ℚ) × List (Str × List (Str × ℚ))) (r : Rdg) :
    List (Str × ℚ) × List (Str × List (Str × ℚ)) :=
  if r.rdg_type ∈ cfg.ignored_reading_types then st
  else
    let coeffs :=
      if r.rdg_type ∈ cfg.trivial_reading_types then st.1
      else if r.rdg_type = str "ambiguous" then
        resolveAmbiguous lookup (teiPossible cfg r.n)
      else [(rdg_label appid r, 1)]
    if r.rdg_type ∉ cfg.trivial_reading_types ∧ r.rdg_type = str "ambiguous" ∧ coeffs = [] then
      ([], st.2)
    else
      match r.wit with
      | none => (coeffs, st.2)
      | some ws => (coeffs, distribute cfg.subwitness_suffixes coeffs st.2 ws)

/-- Embeds tei_collation parse_app (lines 194-274): the reading labels this
unit appends to self.readings and the readings_by_witness dict it returns. -/
def parse_app (cfg : Config) (a : App) : List Str × List (Str × List (Str × ℚ)) :=
  ((pass1 cfg a.app_id a.rdgs).2,
   (a.rdgs.foldl (pass2step cfg a.app_id (pass1 cfg a.app_id a.rdgs).1) ([], [])).2)

/-- Lines 294-305 of read: merge the readings_by_witness dict of one unit into the
document-level witness list and dict (first-seen witness order; per-label
assignment, not accumulation, across units). -/
def merge_unit (acc : List Str × List (Str × List (Str × ℚ)))
    (unit_rbw : List (Str × List (Str × ℚ))) : List Str × List (Str × List (Str × ℚ)) :=
  unit_rbw.foldl (fun acc2 wp =>
    ((if (alGet acc2.2 wp.1).isSome then acc2.1 else acc2.1 ++ [wp.1]),
     alSet acc2.2 wp.1 (wp.2.foldl (fun m lp => alSet m lp.1 lp.2) (alGetD acc2.2 wp.1 [])))) acc

/-- The enumerate-dict loops of lines 309-312: assign each list element its
index (a repeated element keeps the last index, as consecutive dict
assignments do). -/
def indexDictFrom (i : Nat) (acc : List (Str × Nat)) : List Str → List (Str × Nat)
  | [] => acc
  | r :: rest => indexDictFrom (i + 1) (alSet acc r i) rest

/-- Lines 309-310: dict from reading labels to row indices. -/
def rows_by_reading (readings : List Str) : List (Str × Nat) :=
  indexDictFrom 0 [] readings

/-- Lines 311-312: dict from witness sigla to column indices. -/
def cols_by_witness (witnesses : List Str) : List (Str × Nat) :=
  indexDictFrom 0 [] witnesses

/-- np.zeros(shape=(r, c)) as a list of rows. -/
def zerosMatrix (r c : Nat) : List (List ℚ) :=
  List.replicate r (List.replicate c 0)

/-- collation_matrix[i, j] = v. -/
def setEntry (M : List (List ℚ)) (i j : Nat) (v : ℚ) : List (List ℚ) :=
  M.set i ((M.getD i []).set j v)

/-- Lines 313-320: fill the zero matrix from the document-level
readings_by_witness dict.  The none fallbacks are unreachable for the outputs
of read_units, whose coefficient labels always come from the readings list
and whose dict keys always come from the witness list (Python would raise a
KeyError there). -/
def assemble (readings witnesses : List Str) (rbw : List (Str × List (Str × ℚ))) :
    List (List ℚ) :=
  rbw.foldl (fun M wp =>
    match alGet (cols_by_witness witnesses) wp.1 with
    | none => M
    | some j => wp.2.foldl (fun M2 lp =>
        match alGet (rows_by_reading readings) lp.1 with
        | none => M2
        | some i => setEntry M2 i j lp.2) M) (zerosMatrix readings.length witnesses.length)

/-- The raw data assembled by tei_collation read (lines 279-325) before
postprocessing: reading labels, witness sigla, the raw collation matrix, and
the min_extant threshold int(min_extant_proportion * unit count) of line 291
(int truncation equals the floor for the non-negative values used). -/
structure ReadResult where
  readings : List Str
  witnesses : List Str
  collation_matrix : List (List ℚ)
  min_extant : ℤ

/-- Embeds the parsing and assembly part of tei_collation read over an
already-parsed list of app elements. -/
def read_units (cfg : Config) (p : ℚ) (apps : List App) : ReadResult :=
  let st := apps.foldl (fun (acc : List Str × List Str × List (Str × List (Str × ℚ))) a =>
    let pr := parse_app cfg a
    let m := merge_unit (acc.2.1, acc.2.2) pr.2
    (acc.1 ++ pr.1, m.1, m.2)) ([], [], [])
  ⟨st.1, st.2.1, assemble st.1 st.2.1 st.2.2, ⌊p * (apps.length : ℚ)⌋⟩

/-- Column sum of the collation matrix (np.sum(..., axis=0), line 42). -/
def colSum (M : List (List ℚ)) (j : Nat) : ℚ :=
  (M.map (fun row => row.getD j 0)).sum

/-- Line 44: indices of the witnesses whose column sum reaches min_extant. -/
def sufficient_col_inds (me : ℚ) (ncols : Nat) (M : List (List ℚ)) : List Nat :=
  (List.range ncols).filter (fun j => decide (me ≤ colSum M j))

/-- Line 45: indices of the witnesses whose column sum is below min_extant. -/
def fragmentary_col_inds (me : ℚ) (ncols : Nat) (M : List (List ℚ)) : List Nat :=
  (List.range ncols).filter (fun j => decide (colSum M j < me))

/-- Line 54: indices of the readings still attested in the primary matrix. -/
def preserved_row_inds (nreadings : Nat) (P : List (List ℚ)) : List Nat :=
  (List.range nreadings).filter (fun i => decide (0 < (P.getD i []).sum))

/-- The state after the splitting part of collation_parser.postprocess
(lines 42-58): the pruned readings list, the two witness lists, and the
primary and fragmentary matrices with the same pruned row set. -/
structure SplitResult where
  readings : List Str
  witnesses : List Str
  fragmentary_witnesses : List Str
  collation_matrix : List (List ℚ)
  fragmentary_collation_matrix : List (List ℚ)

/-- Embeds lines 42-58 of postprocess: split the columns by the min_extant
threshold, then drop from both matrices every row whose sum in the primary
matrix is not positive. -/
def postprocess_split (me : ℚ) (readings witnesses : List Str) (M : List (List ℚ)) :
    SplitResult :=
  let sInds := sufficient_col_inds me witnesses.length M
  let fInds := fragmentary_col_inds me witnesses.length M
  let P0 := M.map (fun row => sInds.map (fun j => row.getD j 0))
  let F0 := M.map (fun row => fInds.map (fun j => row.getD j 0))
  let rInds := preserved_row_inds readings.length P0
  ⟨rInds.filterMap (fun i => readings.get? i),
   sInds.filterMap (fun j => witnesses.get? j),
   fInds.filterMap (fun j => witnesses.get? j),
   rInds.map (fun i => P0.getD i []),
   rInds.map (fun i => F0.getD i [])⟩

/-- Document frequency of reading i in the primary matrix: the number of
witnesses (the documents of the transposed matrix handed to sklearn) with a
nonzero coefficient for it. -/
def tfidf_df (P : List (List ℚ)) (i : Nat) : Nat :=
  ((P.getD i []).filter (fun x => decide (x ≠ 0))).length

/-- Rows of a matrix rescaled by the fitted inverse document frequencies.
Modelled from the documented behavior of the external
sklearn TfidfTransformer with norm=None, smooth_idf=False: term i is scaled
by ln(n_samples / df_i) + 1, and line 70 of the source subtracts the 1 back
out of idf_, so each entry of row i is multiplied by ln(nwits / df_i).  The
frequencies always come from the primary matrix P (the transformer is fitted
once, line 69), also when the fragmentary matrix is transformed (line 73). -/
noncomputable def tfidf_rows (nwits : Nat) (P : List (List ℚ)) :
    Nat → List (List ℚ) → List (List ℝ)
  | _, [] => []
  | i, row :: rest =>
    row.map (fun x : ℚ => (x : ℝ) * Real.log ((nwits : ℝ) / (tfidf_df P i : ℝ))) ::
      tfidf_rows nwits P (i + 1) rest

/-- The fitted transform applied to a whole matrix. -/
noncomputable def tfidf_apply (nwits : Nat) (P M : List (List ℚ)) : List (List ℝ) :=
  tfidf_rows nwits P 0 M

/-- The untransformed matrices viewed over the reals. -/
def toRealMatrix (M : List (List ℚ)) : List (List ℝ) :=
  M.map (fun row => row.map (fun x : ℚ => (x : ℝ)))

/-- The full result of collation_parser.postprocess.  tfidf_fitted records
whether the TfidfTransformer fit of line 69 executes. -/
structure PPResult where
  readings : List Str
  witnesses : List Str
  fragmentary_witnesses : List Str
  collation_matrix : List (List ℝ)
  fragmentary_collation_matrix : List (List ℝ)
  tfidf_fitted : Bool

/-- Embeds collation_parser.postprocess (lines 37-78): the split of lines
42-58 followed, when use_tfidf is set and the primary shape is not (0, 0)
(the guard of line 68), by the TF-IDF reweighting of both matrices (the
fragmentary matrix is only transformed when its own shape is not (0, 0),
the guard of line 72). -/
noncomputable def postprocess (use_tfidf : Bool) (me : ℚ) (readings witnesses : List Str)
    (M : List (List ℚ)) : PPResult :=
  let s := postprocess_split me readings witnesses M
  if use_tfidf && !(s.readings.length == 0 && s.witnesses.length == 0) then
    ⟨s.readings, s.witnesses, s.fragmentary_witnesses,
     tfidf_apply s.witnesses.length s.collation_matrix s.collation_matrix,
     (if !(s.readings.length == 0 && s.fragmentary_witnesses.length == 0) then
       tfidf_apply s.witnesses.length s.collation_matrix s.fragmentary_collation_matrix
     else toRealMatrix s.fragmentary_collation_matrix),
     true⟩
  else
    ⟨s.readings, s.witnesses, s.fragmentary_witnesses, toRealMatrix s.collation_matrix,
     toRealMatrix s.fragmentary_collation_matrix, false⟩

/-- Regular expression ^[PL]*\d+ (manuscript_witness_pattern, line 337) as a
match test: drop leading P and L characters, then require a digit. -/
def manuscript_witness_match (s : Str) : Bool :=
  match (s.dropWhile (fun c => c == 'P' || c == 'L')).head? with
  | some c => c.isDigit
  | none => false

/-- Embeds vmr_collation remove_ms_mss_suffixes (lines 379-389).  The Python
for-loop only rebinds its local loop variable siglum; the list reduced_sigla
is never modified, so the function returns the whitespace-normalized input
with every token unchanged. -/
def remove_ms_mss_suffixes (wit_str : Str) : Str :=
  joinSpace (pySplitWs wit_str)

/-- The transformation the loop body of lines 381-387 computes into its dead
local variable, i.e. what the docstring of remove_ms_mss_suffixes says the
function does: strip a trailing "ms" or "mss" from every token that does not
match the manuscript pattern. -/
def spec_remove_ms_mss_token (s : Str) : Str :=
  if manuscript_witness_match s then s
  else if endsWith s (str "mss") then s.take (s.length - 3)
  else if endsWith s (str "ms") then s.take (s.length - 2)
  else s

/-- remove_ms_mss_suffixes as documented: the dead-variable computation
applied to every token. -/
def spec_remove_ms_mss_suffixes (wit_str : Str) : Str :=
  joinSpace ((pySplitWs wit_str).map spec_remove_ms_mss_token)

def C10cfg : Config := ⟨[], [], [str "defective"], [str "lacunose"]⟩

def C10trivApp : App := ⟨str "u1", [⟨str "defective", str "1f", str "ax", some [str "w9"]⟩]⟩

def C10substApp : App := ⟨str "u2", [⟨str "", str "1", str "a", some [str "w1"]⟩]⟩

theorem beginsWith_length : ∀ {s w : Str}, beginsWith w s = true → s.length ≤ w.length
  | [], w, _ => Nat.zero_le _
  | d :: s, [], h => by simp [beginsWith] at h
  | d :: s, c :: w, h => by
    rw [beginsWith, Bool.and_eq_true] at h
    simpa using beginsWith_length h.2

theorem endsWith_length {w s : Str} (h : endsWith w s = true) : s.length ≤ w.length := by
  have := beginsWith_length (s := s.reverse) (w := w.reverse) h
  simpa using this

theorem stripSuffix1_length_lt {s w : Str} (hs : s ≠ []) (h : endsWith w s = true) :
    (stripSuffix1 s w).length < w.length := by
  have hls : 0 < s.length := List.length_pos.mpr hs
  have hle : s.length ≤ w.length := endsWith_length h
  rw [stripSuffix1, if_neg (by omega)]
  simp only [List.length_take]
  omega

theorem teiLoop_fix {S : List Str} {w : Str}
    (h : S.find? (fun s => endsWith w s) = none) : ∀ f, teiLoop S f w = w
  | 0 => rfl
  | f + 1 => by rw [teiLoop, h]

theorem teiLoop_exit {S : List Str} (hS : ∀ s ∈ S, s ≠ []) :
    ∀ f w, w.length < f → S.find? (fun s => endsWith (teiLoop S f w) s) = none := by
  intro f
  induction f with
  | zero => intro w hw; exact absurd hw (Nat.not_lt_zero _)
  | succ f ih =>
    intro w hw
    cases hfind : S.find? (fun s => endsWith w s) with
    | none => rw [show teiLoop S (f + 1) w = w from by rw [teiLoop, hfind]]; exact hfind
    | some s =>
      have hmem : s ∈ S := List.mem_of_find?_eq_some hfind
      have hend : endsWith w s = true := List.find?_some hfind
      have hlt := stripSuffix1_length_lt (hS s hmem) hend
      rw [show teiLoop S (f + 1) w = teiLoop S f (stripSuffix1 s w) from by rw [teiLoop, hfind]]
      exact ih _ (by omega)

theorem head?_take_cases (k : Nat) (w : Str) :
    (w.take k).head? = none ∨ (w.take k).head? = w.head? := by
  cases k <;> cases w <;> simp

theorem teiLoop_head {S : List Str} :
    ∀ f w, (teiLoop S f w).head? = none ∨ (teiLoop S f w).head? = w.head? := by
  intro f
  induction f with
  | zero => intro w; right; rfl
  | succ f ih =>
    intro w
    cases hfind : S.find? (fun s => endsWith w s) with
    | none => rw [show teiLoop S (f + 1) w = w from by rw [teiLoop, hfind]]; right; rfl
    | some s =>
      rw [show teiLoop S (f + 1) w = teiLoop S f (stripSuffix1 s w) from by rw [teiLoop, hfind]]
      rcases ih (stripSuffix1 s w) with h | h
      · left; exact h
      · rw [h, stripSuffix1]
        by_cases hz : s.length = 0
        · left; rw [if_pos hz]; rfl
        · rw [if_neg hz]; exact head?_take_cases _ _

theorem head?_dropWhile {p : Char → Bool} :
    ∀ (l : Str) {a : Char}, (l.dropWhile p).head? = some a → p a = false := by
  intro l
  induction l with
  | nil => intro a h; simp at h
  | cons c t ih =>
    intro a h
    rw [List.dropWhile_cons] at h
    by_cases hc : p c
    · rw [if_pos hc] at h; exact ih h
    · rw [if_neg hc] at h
      simp only [List.head?_cons, Option.some.injEq] at h
      rw [← h]
      exact Bool.of_not_eq_true hc

theorem dropWhile_eq_self_of_head {p : Char → Bool} {l : Str}
    (h : ∀ a, l.head? = some a → p a = false) : l.dropWhile p = l := by
  cases l with
  | nil => rfl
  | cons c t =>
    rw [List.dropWhile_cons, if_neg]
    rw [h c rfl]
    simp

theorem dropTrailing_eq_self {cs : List Char} {w : Str}
    (h : ∀ a, w.getLast? = some a → cs.contains a = false) : dropTrailing cs w = w := by
  rw [dropTrailing, dropWhile_eq_self_of_head, List.reverse_reverse]
  intro a ha
  rw [List.head?_reverse] at ha
  exact h a ha

theorem dropTrailing_head {cs : List Char} {w : Str} :
    (dropTrailing cs w).head? = none ∨ (dropTrailing cs w).head? = w.head? := by
  obtain ⟨t, ht⟩ := (w.reverse.dropWhile_suffix (fun c => cs.contains c))
  rw [dropTrailing]
  cases hv : (w.reverse.dropWhile (fun c => cs.contains c)).reverse with
  | nil => left; rfl
  | cons c v =>
    right
    have hw : w = (c :: v) ++ t.reverse := by
      have h2 := congrArg List.reverse ht
      rw [List.reverse_append, List.reverse_reverse] at h2
      rw [← h2, hv]
    rw [hw]
    simp

theorem dropTrailing_getLast {cs : List Char} {w : Str} {a : Char}
    (h : (dropTrailing cs w).getLast? = some a) : cs.contains a = false := by
  rw [dropTrailing, List.getLast?_reverse] at h
  exact head?_dropWhile _ h

theorem pyStripChars_head {cs : List Char} {w : Str} {a : Char}
    (h : (pyStripChars cs w).head? = some a) : cs.contains a = false := by
  rw [pyStripChars] at h
  rcases dropTrailing_head (w := dropLeading cs w) with h0 | h0
  · rw [h0] at h; exact absurd h (by simp)
  · rw [h0] at h
    exact head?_dropWhile _ h

theorem pyStripChars_getLast {cs : List Char} {w : Str} {a : Char}
    (h : (pyStripChars cs w).getLast? = some a) : cs.contains a = false :=
  dropTrailing_getLast h

theorem pyStripChars_eq_self {cs : List Char} {w : Str}
    (h1 : ∀ a, w.head? = some a → cs.contains a = false)
    (h2 : ∀ a, w.getLast? = some a → cs.contains a = false) : pyStripChars cs w = w := by
  rw [pyStripChars, dropLeading, dropWhile_eq_self_of_head h1, dropTrailing_eq_self h2]

theorem TEI_get_base_wit_idem {S : List Str} (hS : ∀ s ∈ S, s ≠ []) {w : Str}
    (hlast : (TEI.get_base_wit S w).getLast? ≠ some '#') :
    TEI.get_base_wit S (TEI.get_base_wit S w) = TEI.get_base_wit S w := by
  set b := pyStripChars ['#'] w with hb
  set r := teiLoop S (b.length + 1) b with hr
  have hfix : pyStripChars ['#'] r = r := by
    apply pyStripChars_eq_self
    · intro a ha
      rcases teiLoop_head (S := S) (b.length + 1) b with h0 | h0
      · rw [← hr] at h0; rw [h0] at ha; exact absurd ha (by simp)
      · rw [← hr] at h0; rw [h0] at ha
        exact pyStripChars_head ha
    · intro a ha
      have : a ≠ '#' := by
        intro hcon
        exact hlast (by rw [show TEI.get_base_wit S w = r from rfl, ha, hcon])
      simp [this]
  have hnone : S.find? (fun s => endsWith r s) = none := by
    rw [hr]
    exact teiLoop_exit hS (b.length + 1) b (Nat.lt_succ_self _)
  show teiLoop S ((pyStripChars ['#'] r).length + 1) (pyStripChars ['#'] r) = r
  rw [hfix]
  exact teiLoop_fix hnone _

theorem stripAllPass_cons (S : List Str) (s : Str) (b : Bool) (w : Str) :
    stripAllPass (s :: S) (b, w) =
      stripAllPass S (if endsWith w s then (true, stripSuffix1 s w) else (b, w)) := rfl

theorem stripAllPass_cases : ∀ (S : List Str), (∀ s ∈ S, s ≠ []) → ∀ (b : Bool) (w : Str),
    stripAllPass S (b, w) = (b, w) ∨
      ((stripAllPass S (b, w)).1 = true ∧ (stripAllPass S (b, w)).2.length < w.length) := by
  intro S
  induction S with
  | nil => intro _ b w; exact Or.inl rfl
  | cons s S ih =>
    intro hS b w
    have hS' : ∀ t ∈ S, t ≠ [] := fun t ht => hS t (List.mem_cons_of_mem _ ht)
    rw [stripAllPass_cons]
    by_cases he : endsWith w s = true
    · rw [if_pos he]
      have hlt : (stripSuffix1 s w).length < w.length :=
        stripSuffix1_length_lt (hS s (List.mem_cons_self s S)) he
      rcases ih hS' true (stripSuffix1 s w) with h | h
      · rw [h]; right; exact ⟨rfl, hlt⟩
      · right; exact ⟨h.1, lt_trans h.2 hlt⟩
    · rw [if_neg he]
      exact ih hS' b w

theorem fehlerLen_bounds {w : Str} {k : Nat} (h : fehlerLen w = some k) :
    1 ≤ k ∧ k ≤ w.length := by
  cases hh : (w.reverse.dropWhile (fun c => c.isDigit)).head? with
  | none =>
    have h' : (none : Option Nat) = some k := by rw [fehlerLen, hh] at h; exact h
    exact absurd h' (by simp)
  | some c =>
    have h' : (if c = 'f' then
        some ((w.reverse.takeWhile (fun c => c.isDigit)).length + 1) else none) = some k := by
      rw [fehlerLen, hh] at h; exact h
    by_cases hc : c = 'f'
    · rw [if_pos hc] at h'
      simp only [Option.some.injEq] at h'
      have h := h'
      have hne : w.reverse.dropWhile (fun c => c.isDigit) ≠ [] := by
        intro hnil; rw [hnil] at hh; exact absurd hh (by simp)
      have hlen : (w.reverse.takeWhile (fun c => c.isDigit)).length +
          (w.reverse.dropWhile (fun c => c.isDigit)).length = w.length := by
        have h3 := congrArg List.length
          (List.takeWhile_append_dropWhile (p := fun c => c.isDigit) (l := w.reverse))
        rw [List.length_append, List.length_reverse] at h3
        exact h3
      have hd : 0 < (w.reverse.dropWhile (fun c => c.isDigit)).length := List.length_pos.mpr hne
      omega
    · rw [if_neg hc] at h'; exact absurd h' (by simp)

theorem vmrLoop_succ (S : List Str) (f : Nat) (w : Str) :
    vmrLoop S (f + 1) w =
      if (stripAllPass S (false, w)).1 then vmrLoop S f (stripAllPass S (false, w)).2
      else
        match fehlerLen w with
        | some k => vmrLoop S f (w.take (w.length - k))
        | none =>
          if w.getLast? = some 'V' then vmrLoop S f (w.take (w.length - 1)) else w := rfl

theorem vmrLoop_exit {S : List Str} (hS : ∀ s ∈ S, s ≠ []) :
    ∀ f w, w.length < f →
      stripAllPass S (false, vmrLoop S f w) = (false, vmrLoop S f w) ∧
      fehlerLen (vmrLoop S f w) = none ∧ (vmrLoop S f w).getLast? ≠ some 'V' := by
  intro f
  induction f with
  | zero => intro w hw; exact absurd hw (Nat.not_lt_zero _)
  | succ f ih =>
    intro w hw
    rcases stripAllPass_cases S hS false w with hp | hp
    · have hp1 : ¬((stripAllPass S (false, w)).1 = true) := by rw [hp]; simp
      cases hf : fehlerLen w with
      | some k =>
        have hb := fehlerLen_bounds hf
        have hstep : vmrLoop S (f + 1) w = vmrLoop S f (w.take (w.length - k)) := by
          rw [vmrLoop_succ, if_neg hp1, hf]
        rw [hstep]
        refine ih _ ?_
        simp only [List.length_take]
        omega
      | none =>
        by_cases hv : w.getLast? = some 'V'
        · have hne : w ≠ [] := by intro hn; rw [hn] at hv; exact absurd hv (by simp)
          have hpos : 0 < w.length := List.length_pos.mpr hne
          have hstep : vmrLoop S (f + 1) w = vmrLoop S f (w.take (w.length - 1)) := by
            rw [vmrLoop_succ, if_neg hp1, hf]
            show (if w.getLast? = some 'V' then vmrLoop S f (w.take (w.length - 1)) else w) =
              vmrLoop S f (w.take (w.length - 1))
            rw [if_pos hv]
          rw [hstep]
          refine ih _ ?_
          simp only [List.length_take]
          omega
        · have hstep : vmrLoop S (f + 1) w = w := by
            rw [vmrLoop_succ, if_neg hp1, hf]
            show (if w.getLast? = some 'V' then vmrLoop S f (w.take (w.length - 1)) else w) = w
            rw [if_neg hv]
          rw [hstep]
          exact ⟨hp, hf, hv⟩
    · have hstep : vmrLoop S (f + 1) w = vmrLoop S f (stripAllPass S (false, w)).2 := by
        rw [vmrLoop_succ, if_pos hp.1]
      rw [hstep]
      exact ih _ (by omega)

theorem vmrLoop_fix {S : List Str} {w : Str}
    (h1 : stripAllPass S (false, w) = (false, w))
    (h2 : fehlerLen w = none) (h3 : w.getLast? ≠ some 'V') : ∀ f, vmrLoop S f w = w
  | 0 => rfl
  | f + 1 => by
    have hp1 : ¬((stripAllPass S (false, w)).1 = true) := by rw [h1]; simp
    rw [vmrLoop_succ, if_neg hp1, h2]
    show (if w.getLast? = some 'V' then vmrLoop S f (w.take (w.length - 1)) else w) = w
    rw [if_neg h3]

theorem VMR_get_base_wit_idem {S : List Str} (hS : ∀ s ∈ S, s ≠ []) (w : Str) :
    VMR.get_base_wit S (VMR.get_base_wit S w) = VMR.get_base_wit S w := by
  obtain ⟨h1, h2, h3⟩ := vmrLoop_exit hS (w.length + 1) w (Nat.lt_succ_self _)
  exact vmrLoop_fix h1 h2 h3 _

theorem alGet_alSet {β : Type} (m : List (Str × β)) (k k' : Str) (v : β) :
    alGet (alSet m k v) k' = if k = k' then some v else alGet m k' := by
  induction m with
  | nil => simp only [alSet, alGet]
  | cons p ps ih =>
    by_cases hp : p.1 = k
    · rw [show alSet (p :: ps) k v = (k, v) :: ps from by rw [alSet, if_pos hp]]
      by_cases hk : k = k'
      · rw [alGet, if_pos hk, if_pos hk]
      · rw [alGet, if_neg hk, if_neg hk, alGet, if_neg (by rw [hp]; exact hk)]
    · rw [show alSet (p :: ps) k v = p :: alSet ps k v from by rw [alSet, if_neg hp]]
      by_cases hpk : p.1 = k'
      · have hk : ¬(k = k') := by intro he; exact hp (by rw [he, hpk])
        rw [alGet, if_pos hpk, if_neg hk, alGet, if_pos hpk]
      · rw [alGet, if_neg hpk, ih]
        by_cases hk : k = k'
        · rw [if_pos hk, if_pos hk]
        · rw [if_neg hk, if_neg hk, alGet, if_neg hpk]

theorem alGet_alSet_self {β : Type} (m : List (Str × β)) (k : Str) (v : β) :
    alGet (alSet m k v) k = some v := by
  rw [alGet_alSet, if_pos rfl]

theorem alSet_ne_nil {β : Type} (m : List (Str × β)) (k : Str) (v : β) :
    alSet m k v ≠ [] := by
  cases m with
  | nil => simp [alSet]
  | cons p ps =>
    rw [alSet]
    by_cases hp : p.1 = k
    · rw [if_pos hp]; simp
    · rw [if_neg hp]; simp

theorem crStep_none {lookup : List (Str × Str)} {p : Str} (acc : List (Str × ℚ))
    (hg : alGet lookup p = none) : crStep lookup acc p = acc := by
  rw [crStep, hg]

theorem crStep_some {lookup : List (Str × Str)} {p lbl : Str} (acc : List (Str × ℚ))
    (hg : alGet lookup p = some lbl) : crStep lookup acc p = alSet acc lbl 1 := by
  rw [crStep, hg]

theorem crStep_foldl_ne_nil {lookup : List (Str × Str)} :
    ∀ (possible : List Str) (acc : List (Str × ℚ)), acc ≠ [] →
      possible.foldl (crStep lookup) acc ≠ [] := by
  intro possible
  induction possible with
  | nil => intro acc h; exact h
  | cons p ps ih =>
    intro acc h
    rw [List.foldl_cons]
    cases hg : alGet lookup p with
    | none => rw [crStep_none acc hg]; exact ih acc h
    | some lbl => rw [crStep_some acc hg]; exact ih _ (alSet_ne_nil acc lbl 1)

theorem collectResolved_eq_nil_iff (lookup : List (Str × Str)) (possible : List Str) :
    collectResolved lookup possible = [] ↔ ∀ p ∈ possible, alGet lookup p = none := by
  rw [collectResolved]
  induction possible with
  | nil => simp
  | cons p ps ih =>
    rw [List.foldl_cons]
    cases hg : alGet lookup p with
    | none =>
      rw [crStep_none [] hg]
      simp only [List.mem_cons]
      constructor
      · intro h q hq
        rcases hq with hq | hq
        · rw [hq]; exact hg
        · exact (ih.mp h) q hq
      · intro h
        exact ih.mpr (fun q hq => h q (Or.inr hq))
    | some lbl =>
      rw [crStep_some [] hg]
      constructor
      · intro h
        exact absurd h (crStep_foldl_ne_nil ps (alSet [] lbl 1) (alSet_ne_nil [] lbl 1))
      · intro h
        have h3 := h p (List.mem_cons_self p ps)
        rw [h3] at hg
        exact absurd hg (by simp)

theorem sum_map_snd_const (l : List (Str × ℚ)) (v : ℚ) :
    ((l.map (fun q => (q.1, v))).map Prod.snd).sum = (l.length : ℚ) * v := by
  induction l with
  | nil => simp
  | cons p ps ih =>
    simp only [List.map_cons, List.sum_cons, ih, List.length_cons]
    push_cast
    ring

theorem resolveAmbiguous_values {lookup : List (Str × Str)} {possible : List Str}
    (h : resolveAmbiguous lookup possible ≠ []) :
    (∀ q ∈ resolveAmbiguous lookup possible,
        q.2 = 1 / ((resolveAmbiguous lookup possible).length : ℚ)) ∧
    ((resolveAmbiguous lookup possible).map Prod.snd).sum = 1 := by
  by_cases hc : (collectResolved lookup possible).length = 0
  · exact absurd (by rw [resolveAmbiguous, if_pos hc]) h
  · have hre : resolveAmbiguous lookup possible =
        (collectResolved lookup possible).map
          (fun q => (q.1, (1 : ℚ) / (collectResolved lookup possible).length)) := by
      rw [resolveAmbiguous, if_neg hc]
    have hlen : (resolveAmbiguous lookup possible).length =
        (collectResolved lookup possible).length := by
      rw [hre, List.length_map]
    constructor
    · intro q hq
      rw [hre] at hq
      rcases List.mem_map.mp hq with ⟨a, _, ha⟩
      rw [hlen, ← ha]
    · rw [hre, sum_map_snd_const, mul_one_div, div_self (Nat.cast_ne_zero.mpr hc)]

/-- C2: an Ambiguous candidate that resolves to at least one known
substantive reading emits coefficients of 1/k to each of the k resolved
readings, summing to exactly 1; one that resolves to none emits no
coefficients at all — its resolved dict is empty exactly when no
slash-separated label is in the pass-1 lookup, and in that case the second
pass of parse_app leaves the readings_by_witness dict untouched (the
continue of line 249).  Both unit parsers resolve ambiguity through
resolveAmbiguous; parse_app feeds it teiPossible (line 241) and
parse_segment feeds it the slash-split reading text (line 484). -/
theorem C2_theorem (lookup : List (Str × Str)) (possible : List Str) :
    (resolveAmbiguous lookup possible = [] ↔ ∀ p ∈ possible, alGet lookup p = none) ∧
    (resolveAmbiguous lookup possible ≠ [] →
      (∀ q ∈ resolveAmbiguous lookup possible,
          q.2 = 1 / ((resolveAmbiguous lookup possible).length : ℚ)) ∧
      ((resolveAmbiguous lookup possible).map Prod.snd).sum = 1) ∧
    (∀ (cfg : Config) (appid : Str) (st : List (Str × ℚ) × List (Str × List (Str × ℚ)))
        (r : Rdg), r.rdg_type ∉ cfg.ignored_reading_types →
        r.rdg_type ∉ cfg.trivial_reading_types → r.rdg_type = str "ambiguous" →
        resolveAmbiguous lookup (teiPossible cfg r.n) = [] →
        (pass2step cfg appid lookup st r).2 = st.2) := by
  refine ⟨?_, fun h => resolveAmbiguous_values h, ?_⟩
  · constructor
    · intro h
      by_cases hc : (collectResolved lookup possible).length = 0
      · exact (collectResolved_eq_nil_iff lookup possible).mp (List.length_eq_zero.mp hc)
      · rw [resolveAmbiguous, if_neg hc] at h
        have : collectResolved lookup possible = [] := List.map_eq_nil.mp h
        exact absurd (by rw [this]; rfl) hc
    · intro h
      have hc : collectResolved lookup possible = [] :=
        (collectResolved_eq_nil_iff lookup possible).mpr h
      rw [resolveAmbiguous, if_pos (by rw [hc]; rfl)]
  · intro cfg appid st r h1 h2 h3 h4
    rw [pass2step, if_neg h1]
    have hco : (if r.rdg_type ∈ cfg.trivial_reading_types then st.1
        else if r.rdg_type = str "ambiguous" then
          resolveAmbiguous lookup (teiPossible cfg r.n)
        else [(rdg_label appid r, 1)]) = [] := by
      rw [if_neg h2, if_pos h3, h4]
    rw [if_pos ⟨h2, h3, hco⟩]

theorem C2_witness :
    resolveAmbiguous [(str "1", str "L1")] [str "1", str "2"] ≠ [] ∧
    ((resolveAmbiguous [(str "1", str "L1")] [str "1", str "2"]).map Prod.snd).sum = 1 :=
  have h : resolveAmbiguous [(str "1", str "L1")] [str "1", str "2"] ≠ [] := by
    simp [resolveAmbiguous, collectResolved, crStep, alGet, alSet, str]
  ⟨h, ((C2_theorem [(str "1", str "L1")] [str "1", str "2"]).2.1 h).2⟩

theorem filterMap_get?_length {α : Type} (l : List α) :
    ∀ inds : List Nat, (∀ i ∈ inds, i < l.length) →
      (inds.filterMap (fun i => l.get? i)).length = inds.length := by
  intro inds
  induction inds with
  | nil => intro _; rfl
  | cons i t ih =>
    intro h
    have hi : i < l.length := h i (List.mem_cons_self i t)
    cases hg : l.get? i with
    | none =>
      rw [List.get?_eq_get hi] at hg
      exact absurd hg (by simp)
    | some a =>
      rw [List.filterMap_cons_some hg, List.length_cons, List.length_cons,
        ih (fun j hj => h j (List.mem_cons_of_mem _ hj))]

theorem preserved_row_inds_lt {n : Nat} {P : List (List ℚ)} {i : Nat}
    (h : i ∈ preserved_row_inds n P) : i < n := by
  rw [preserved_row_inds] at h
  exact List.mem_range.mp (List.mem_filter.mp h).1

theorem sufficient_col_inds_lt {me : ℚ} {n : Nat} {M : List (List ℚ)} {j : Nat}
    (h : j ∈ sufficient_col_inds me n M) : j < n := by
  rw [sufficient_col_inds] at h
  exact List.mem_range.mp (List.mem_filter.mp h).1

theorem fragmentary_col_inds_lt {me : ℚ} {n : Nat} {M : List (List ℚ)} {j : Nat}
    (h : j ∈ fragmentary_col_inds me n M) : j < n := by
  rw [fragmentary_col_inds] at h
  exact List.mem_range.mp (List.mem_filter.mp h).1

theorem postprocess_split_lengths (me : ℚ) (rd ws : List Str) (M : List (List ℚ)) :
    (postprocess_split me rd ws M).readings.length =
      (postprocess_split me rd ws M).collation_matrix.length ∧
    (postprocess_split me rd ws M).collation_matrix.length =
      (postprocess_split me rd ws M).fragmentary_collation_matrix.length ∧
    (postprocess_split me rd ws M).witnesses.length =
      (sufficient_col_inds me ws.length M).length := by
  simp only [postprocess_split]
  refine ⟨?_, by rw [List.length_map, List.length_map], ?_⟩
  · rw [List.length_map]
    exact filterMap_get?_length rd _ (fun i hi => preserved_row_inds_lt hi)
  · exact filterMap_get?_length ws _ (fun j hj => sufficient_col_inds_lt hj)

theorem tfidf_rows_length (nwits : Nat) (P : List (List ℚ)) :
    ∀ (i : Nat) (M : List (List ℚ)), (tfidf_rows nwits P i M).length = M.length
  | _, [] => rfl
  | i, row :: rest => by
    rw [tfidf_rows, List.length_cons, List.length_cons,
      tfidf_rows_length nwits P (i + 1) rest]

/-- C6: after postprocess the primary and fragmentary matrices always have
the same number of rows as the (shared, hence identically ordered) pruned
readings list, with or without TF-IDF reweighting, because lines 52-58
remove the rows of readings unattested in the primary matrix from both
matrices at once. -/
theorem C6_theorem (flag : Bool) (me : ℚ) (rd ws : List Str) (M : List (List ℚ)) :
    (postprocess flag me rd ws M).readings.length =
      (postprocess flag me rd ws M).collation_matrix.length ∧
    (postprocess flag me rd ws M).collation_matrix.length =
      (postprocess flag me rd ws M).fragmentary_collation_matrix.length := by
  obtain ⟨h1, h2, _⟩ := postprocess_split_lengths me rd ws M
  simp only [postprocess]
  by_cases hguard : (flag && !((postprocess_split me rd ws M).readings.length == 0 &&
      (postprocess_split me rd ws M).witnesses.length == 0)) = true
  · rw [if_pos hguard]
    dsimp only
    rw [tfidf_apply, tfidf_rows_length]
    by_cases hfr : (!((postprocess_split me rd ws M).readings.length == 0 &&
        (postprocess_split me rd ws M).fragmentary_witnesses.length == 0)) = true
    · rw [if_pos hfr, tfidf_apply, tfidf_rows_length]
      exact ⟨h1, h2⟩
    · rw [if_neg hfr, toRealMatrix, List.length_map]
      exact ⟨h1, h2⟩
  · rw [if_neg hguard]
    dsimp only
    rw [toRealMatrix, toRealMatrix, List.length_map, List.length_map]
    exact ⟨h1, h2⟩

theorem rowsum_pos_of_mem_split {me : ℚ} {rd ws : List Str} {M : List (List ℚ)}
    {row : List ℚ} (h : row ∈ (postprocess_split me rd ws M).collation_matrix) :
    0 < row.sum := by
  simp only [postprocess_split] at h
  rcases List.mem_map.mp h with ⟨i, hi, hrow⟩
  rw [preserved_row_inds] at hi
  have hdec := (List.mem_filter.mp hi).2
  rw [hrow] at hdec
  exact of_decide_eq_true hdec

theorem sum_map_ratCast (l : List ℚ) :
    (l.map (fun x : ℚ => (x : ℝ))).sum = ((l.sum : ℚ) : ℝ) := by
  induction l with
  | nil => simp
  | cons x t ih => rw [List.map_cons, List.sum_cons, List.sum_cons, ih, Rat.cast_add]

/-- C5 (amended): without TF-IDF reweighting every row of the primary matrix
returned by postprocess has a strictly positive sum, because lines 52-58 keep
exactly the rows whose sums in the primary matrix are positive.  With
reweighting enabled this fails (see the counterexample): a reading attested
by every primary witness is rescaled by ln(n/n) = 0 and its row sum becomes
exactly 0. -/
theorem C5_amended (me : ℚ) (rd ws : List Str) (M : List (List ℚ)) :
    ∀ row ∈ (postprocess false me rd ws M).collation_matrix, 0 < row.sum := by
  intro row hrow
  have hpp : (postprocess false me rd ws M).collation_matrix =
      toRealMatrix (postprocess_split me rd ws M).collation_matrix := by
    simp [postprocess]
  rw [hpp, toRealMatrix] at hrow
  rcases List.mem_map.mp hrow with ⟨qrow, hq, hcast⟩
  have hpos := rowsum_pos_of_mem_split hq
  rw [← hcast, sum_map_ratCast]
  exact_mod_cast hpos

theorem C5_amended_witness :
    0 < ([((1 : ℚ) : ℝ)] : List ℝ).sum := by
  refine C5_amended 0 [str "r1"] [str "w1"] [[1]] [((1 : ℚ) : ℝ)] ?_
  have hcol : colSum [[1]] 0 = 1 := by simp [colSum]
  have hsuff : sufficient_col_inds 0 1 [[1]] = [0] := by
    rw [sufficient_col_inds, List.range_succ, List.range_zero]
    simp [hcol]
  have hfrag : fragmentary_col_inds 0 1 [[1]] = [] := by
    rw [fragmentary_col_inds, List.range_succ, List.range_zero]
    simp [hcol]
  have hrows : preserved_row_inds 1 [[1]] = [0] := by
    rw [preserved_row_inds, List.range_succ, List.range_zero]
    simp
  have hs : postprocess_split 0 [str "r1"] [str "w1"] [[1]] =
      ⟨[str "r1"], [str "w1"], [], [[1]], [[]]⟩ := by
    norm_num [postprocess_split, hsuff, hfrag, hrows]
    exact ⟨by decide, by decide⟩
  simp [postprocess, hs, toRealMatrix]

theorem C5_split_value :
    postprocess_split 0 [str "r1", str "r2"] [str "A", str "B"] [[1, 1], [1, 0]] =
      ⟨[str "r1", str "r2"], [str "A", str "B"], [], [[1, 1], [1, 0]], [[], []]⟩ := by
  have hcol0 : colSum [[1, 1], [1, 0]] 0 = 2 := by norm_num [colSum]
  have hcol1 : colSum [[1, 1], [1, 0]] 1 = 1 := by norm_num [colSum]
  have hsuff : sufficient_col_inds 0 2 [[1, 1], [1, 0]] = [0, 1] := by
    rw [sufficient_col_inds, show List.range 2 = [0, 1] from rfl]
    norm_num [List.filter_cons, hcol0, hcol1]
  have hfrag : fragmentary_col_inds 0 2 [[1, 1], [1, 0]] = [] := by
    rw [fragmentary_col_inds, show List.range 2 = [0, 1] from rfl]
    norm_num [List.filter_cons, hcol0, hcol1]
  have hrows : preserved_row_inds 2 [[1, 1], [1, 0]] = [0, 1] := by
    rw [preserved_row_inds, show List.range 2 = [0, 1] from rfl]
    norm_num [List.filter_cons]
  norm_num [postprocess_split, hsuff, hfrag, hrows]
  exact ⟨by decide, by decide⟩

/-- C5 (counterexample): with TF-IDF reweighting enabled, a primary matrix in
which reading r1 is attested by both witnesses ends with row r1 rescaled by
ln(2/2) = 0, so its row sum is exactly 0 although the row still exists; the
claimed strictly positive row sums fail when reweighting is enabled. -/
theorem C5_counterexample :
    (postprocess true 0 [str "r1", str "r2"] [str "A", str "B"]
        [[1, 1], [1, 0]]).readings.length = 2 ∧
    ((postprocess true 0 [str "r1", str "r2"] [str "A", str "B"]
        [[1, 1], [1, 0]]).collation_matrix.getD 0 []).sum = 0 := by
  have hdf : tfidf_df [[1, 1], [1, 0]] 0 = 2 := by norm_num [tfidf_df, List.filter_cons]
  constructor
  · simp [postprocess, C5_split_value]
  · have hcm : (postprocess true 0 [str "r1", str "r2"] [str "A", str "B"]
        [[1, 1], [1, 0]]).collation_matrix =
        tfidf_apply 2 [[1, 1], [1, 0]] [[1, 1], [1, 0]] := by
      simp [postprocess, C5_split_value]
    rw [hcm, tfidf_apply, tfidf_rows, hdf]
    norm_num [Real.log_one]

/-- C7: postprocess partitions the witness columns exactly by the extant
threshold computed upstream as the floor of min_extant_proportion times the
unit count (line 291, embedded in read_units): a column index below the
witness count is sufficient precisely when its column sum reaches the
threshold, fragmentary precisely when it does not, and always exactly one of
the two; on the concrete matrix with column sums 3, 1 and 2 and threshold 2,
the primary witnesses are those with sums 3 and 2 and the fragmentary
witness is the one with sum 1; over a three-unit document the threshold of
read_units is the floor of 0.95 * 3, i.e. 2. -/
theorem C7_theorem :
    (∀ (me : ℚ) (M : List (List ℚ)) (ncols j : Nat), j < ncols →
      ((j ∈ sufficient_col_inds me ncols M ↔ me ≤ colSum M j) ∧
       (j ∈ fragmentary_col_inds me ncols M ↔ colSum M j < me) ∧
       (j ∈ sufficient_col_inds me ncols M ↔ j ∉ fragmentary_col_inds me ncols M))) ∧
    ((read_units ⟨[], [], [], []⟩ (95/100)
        [⟨str "u1", []⟩, ⟨str "u2", []⟩, ⟨str "u3", []⟩]).min_extant = 2 ∧
     (postprocess_split 2 [str "r1", str "r2", str "r3"] [str "A", str "B", str "C"]
        [[1, 1, 1], [1, 0, 1], [1, 0, 0]]).witnesses = [str "A", str "C"] ∧
     (postprocess_split 2 [str "r1", str "r2", str "r3"] [str "A", str "B", str "C"]
        [[1, 1, 1], [1, 0, 1], [1, 0, 0]]).fragmentary_witnesses = [str "B"]) := by
  constructor
  · intro me M ncols j hj
    have h1 : j ∈ sufficient_col_inds me ncols M ↔ me ≤ colSum M j := by
      rw [sufficient_col_inds, List.mem_filter, List.mem_range]
      simp [hj]
    have h2 : j ∈ fragmentary_col_inds me ncols M ↔ colSum M j < me := by
      rw [fragmentary_col_inds, List.mem_filter, List.mem_range]
      simp [hj]
    refine ⟨h1, h2, ?_⟩
    rw [h1, h2]
    exact not_lt.symm
  · have hcol0 : colSum [[1, 1, 1], [1, 0, 1], [1, 0, 0]] 0 = 3 := by norm_num [colSum]
    have hcol1 : colSum [[1, 1, 1], [1, 0, 1], [1, 0, 0]] 1 = 1 := by norm_num [colSum]
    have hcol2 : colSum [[1, 1, 1], [1, 0, 1], [1, 0, 0]] 2 = 2 := by norm_num [colSum]
    have hsuff : sufficient_col_inds 2 3 [[1, 1, 1], [1, 0, 1], [1, 0, 0]] = [0, 2] := by
      rw [sufficient_col_inds, show List.range 3 = [0, 1, 2] from rfl]
      norm_num [List.filter_cons, hcol0, hcol1, hcol2]
    have hfrag : fragmentary_col_inds 2 3 [[1, 1, 1], [1, 0, 1], [1, 0, 0]] = [1] := by
      rw [fragmentary_col_inds, show List.range 3 = [0, 1, 2] from rfl]
      norm_num [List.filter_cons, hcol0, hcol1, hcol2]
    have hlen3 : [str "A", str "B", str "C"].length = 3 := rfl
    refine ⟨?_, ?_, ?_⟩
    · simp only [read_units]
      norm_num
    · simp only [postprocess_split, hlen3, hsuff]
      decide
    · simp only [postprocess_split, hlen3, hfrag]
      decide

theorem C7_witness :
    (0 ∈ sufficient_col_inds 2 3 [[1, 1, 1], [1, 0, 1], [1, 0, 0]] ↔
      (2 : ℚ) ≤ colSum [[1, 1, 1], [1, 0, 1], [1, 0, 0]] 0) ∧
    (0 ∈ fragmentary_col_inds 2 3 [[1, 1, 1], [1, 0, 1], [1, 0, 0]] ↔
      colSum [[1, 1, 1], [1, 0, 1], [1, 0, 0]] 0 < 2) ∧
    (0 ∈ sufficient_col_inds 2 3 [[1, 1, 1], [1, 0, 1], [1, 0, 0]] ↔
      0 ∉ fragmentary_col_inds 2 3 [[1, 1, 1], [1, 0, 1], [1, 0, 0]]) :=
  C7_theorem.1 2 [[1, 1, 1], [1, 0, 1], [1, 0, 0]] 3 0 (by norm_num)

theorem getD_map_const_nil (M : List (List ℚ)) (i : Nat) :
    ((M.map (fun _ => ([] : List ℚ))).getD i []) = [] := by
  rw [List.getD_eq_getElem?_getD, List.getElem?_map]
  cases M[i]? <;> simp

theorem preserved_row_inds_map_nil (n : Nat) (M : List (List ℚ)) :
    preserved_row_inds n (M.map (fun _ => ([] : List ℚ))) = [] := by
  rw [preserved_row_inds, List.filter_eq_nil_iff]
  intro i _
  rw [getD_map_const_nil]
  simp

/-- C8 (counterexample): on a matrix whose single reading loses all support in
the primary split (shape (0, 2) after pruning: zero rows, two columns), the
guard of line 68 compares the shape only with (0, 0), so the transformer is
still fitted — postprocess does not short-circuit reweighting for a
zero-row-only degenerate matrix as the claim states. -/
theorem C8_counterexample :
    (postprocess true 0 [str "r1"] [str "w1", str "w2"] [[0, 0]]).tfidf_fitted = true ∧
    (postprocess true 0 [str "r1"] [str "w1", str "w2"] [[0, 0]]).readings.length = 0 ∧
    (postprocess true 0 [str "r1"] [str "w1", str "w2"] [[0, 0]]).witnesses.length = 2 := by
  have hcol0 : colSum [[0, 0]] 0 = 0 := by norm_num [colSum]
  have hcol1 : colSum [[0, 0]] 1 = 0 := by norm_num [colSum]
  have hsuff : sufficient_col_inds 0 2 [[0, 0]] = [0, 1] := by
    rw [sufficient_col_inds, show List.range 2 = [0, 1] from rfl]
    norm_num [List.filter_cons, hcol0, hcol1]
  have hfrag : fragmentary_col_inds 0 2 [[0, 0]] = [] := by
    rw [fragmentary_col_inds, show List.range 2 = [0, 1] from rfl]
    norm_num [List.filter_cons, hcol0, hcol1]
  have hrows : preserved_row_inds 1 [[0, 0]] = [] := by
    rw [preserved_row_inds, show List.range 1 = [0] from rfl]
    norm_num [List.filter_cons]
  have hs : postprocess_split 0 [str "r1"] [str "w1", str "w2"] [[0, 0]] =
      ⟨[], [str "w1", str "w2"], [], [], []⟩ := by
    norm_num [postprocess_split, hsuff, hfrag, hrows]
    decide
  simp [postprocess, hs]

/-- C8 (amended): postprocess short-circuits reweighting only when the primary
matrix shape is exactly (0, 0); after the pruning of lines 52-58 a primary
matrix with zero columns necessarily has zero rows, so the only reachable
degenerate case that is not short-circuited is zero rows with at least one
column, and there the transformer is still fitted. -/
theorem C8_amended (flag : Bool) (me : ℚ) (rd ws : List Str) (M : List (List ℚ)) :
    ((postprocess_split me rd ws M).witnesses.length = 0 →
      (postprocess_split me rd ws M).readings.length = 0) ∧
    ((postprocess flag me rd ws M).tfidf_fitted = true ↔
      flag = true ∧ ¬((postprocess_split me rd ws M).readings.length = 0 ∧
        (postprocess_split me rd ws M).witnesses.length = 0)) := by
  constructor
  · intro hw
    have hlen := (postprocess_split_lengths me rd ws M).2.2
    rw [hw] at hlen
    have hnil : sufficient_col_inds me ws.length M = [] :=
      List.length_eq_zero.mp hlen.symm
    simp only [postprocess_split, hnil, List.map_nil]
    rw [preserved_row_inds_map_nil]
    rfl
  · by_cases hguard : (flag && !((postprocess_split me rd ws M).readings.length == 0 &&
        (postprocess_split me rd ws M).witnesses.length == 0)) = true
    · have hfit : (postprocess flag me rd ws M).tfidf_fitted = true := by
        simp only [postprocess]
        rw [if_pos hguard]
      rw [hfit]
      simp only [Bool.and_eq_true, Bool.not_eq_true', Bool.and_eq_false_iff,
        beq_iff_eq, beq_eq_false_iff_ne, ne_eq] at hguard
      constructor
      · intro _
        exact ⟨hguard.1, fun hcon => by
          rcases hguard.2 with h | h
          · exact h hcon.1
          · exact h hcon.2⟩
      · intro _; rfl
    · have hfit : (postprocess flag me rd ws M).tfidf_fitted = false := by
        simp only [postprocess]
        rw [if_neg hguard]
      rw [hfit]
      constructor
      · intro hcon; exact absurd hcon (by simp)
      · rintro ⟨hf, hnv⟩
        exfalso
        apply hguard
        rw [hf, Bool.true_and, Bool.not_eq_true']
        rcases not_and_or.mp hnv with h | h
        · simp [h]
        · simp [h]

theorem C8_amended_witness :
    (postprocess_split 5 [str "r1"] [str "w1"] [[1]]).readings.length = 0 := by
  refine (C8_amended true 5 [str "r1"] [str "w1"] [[1]]).1 ?_
  have hcol : colSum [[1]] 0 = 1 := by norm_num [colSum]
  have hsuff : sufficient_col_inds 5 1 [[1]] = [] := by
    rw [sufficient_col_inds, show List.range 1 = [0] from rfl]
    norm_num [List.filter_cons, hcol]
  simp only [postprocess_split, show [str "w1"].length = 1 from rfl, hsuff]
  rfl

/-- C3 (counterexample): TEI get_base_wit is not idempotent for every token
and suffix set.  With the subwitness suffix "x", the token "A#x" normalizes
to "A#" (the suffix strip exposes a trailing pointer marker), and a second
normalization strips that marker, giving "A" instead of "A#". -/
theorem C3_counterexample :
    TEI.get_base_wit [str "x"] (str "A#x") = str "A#" ∧
    TEI.get_base_wit [str "x"] (TEI.get_base_wit [str "x"] (str "A#x")) ≠
      TEI.get_base_wit [str "x"] (str "A#x") := by
  constructor
  · decide
  · decide

/-- C3 (amended): the VMR get_base_wit is idempotent for every token, and the
TEI get_base_wit is idempotent for every token whose normal form does not end
with the pointer marker "#"; both statements assume every configured
subwitness suffix is nonempty, which is exactly the condition for the Python
while loops to terminate. -/
theorem C3_amended (S : List Str) (hS : ∀ s ∈ S, s ≠ []) :
    (∀ w : Str, VMR.get_base_wit S (VMR.get_base_wit S w) = VMR.get_base_wit S w) ∧
    (∀ w : Str, (TEI.get_base_wit S w).getLast? ≠ some '#' →
      TEI.get_base_wit S (TEI.get_base_wit S w) = TEI.get_base_wit S w) :=
  ⟨fun w => VMR_get_base_wit_idem hS w, fun w hw => TEI_get_base_wit_idem hS hw⟩

theorem C3_amended_witness :
    VMR.get_base_wit [str "x"] (VMR.get_base_wit [str "x"] (str "P1f2V")) =
      VMR.get_base_wit [str "x"] (str "P1f2V") ∧
    TEI.get_base_wit [str "x"] (TEI.get_base_wit [str "x"] (str "#Ax")) =
      TEI.get_base_wit [str "x"] (str "#Ax") :=
  ⟨(C3_amended [str "x"] (by decide)).1 (str "P1f2V"),
   (C3_amended [str "x"] (by decide)).2 (str "#Ax") (by decide)⟩

/-- C9: the claim matches the docstring of remove_ms_mss_suffixes, but the
code contradicts both: the loop of lines 381-387 assigns the stripped token
to the loop variable only and never writes it back into reduced_sigla, so the
non-manuscript token "vgms" comes back as "vgms", not "vg".  The second
conjunct evaluates the transformation the loop body computes into its dead
variable (the documented behavior), which does produce "vg". -/
theorem C9_code_behavior :
    remove_ms_mss_suffixes (str "vgms") = str "vgms" ∧
    manuscript_witness_match (str "vgms") = false ∧
    spec_remove_ms_mss_suffixes (str "vgms") = str "vg" ∧
    str "vgms" ≠ str "vg" := by
  refine ⟨by decide, by decide, by decide, by decide⟩

/-- C4: one variation unit with substantive readings a (witness w1) and b
(witness w2) and an ambiguous reading a/b (witness w3) assembles to a raw
matrix with exactly 2 rows and 3 columns in which the column of the third witness
holds coefficient 1/2 in both rows. -/
theorem C4_scenario :
    (read_units ⟨[], [], [], []⟩ (95/100)
      [⟨str "u", [⟨str "", str "a", str "xa", some [str "w1"]⟩,
                  ⟨str "", str "b", str "xb", some [str "w2"]⟩,
                  ⟨str "ambiguous", str "a/b", str "xab", some [str "w3"]⟩]⟩]).readings.length
        = 2 ∧
    (read_units ⟨[], [], [], []⟩ (95/100)
      [⟨str "u", [⟨str "", str "a", str "xa", some [str "w1"]⟩,
                  ⟨str "", str "b", str "xb", some [str "w2"]⟩,
                  ⟨str "ambiguous", str "a/b", str "xab", some [str "w3"]⟩]⟩]).witnesses.length
        = 3 ∧
    (read_units ⟨[], [], [], []⟩ (95/100)
      [⟨str "u", [⟨str "", str "a", str "xa", some [str "w1"]⟩,
                  ⟨str "", str "b", str "xb", some [str "w2"]⟩,
                  ⟨str "ambiguous", str "a/b", str "xab",
                    some [str "w3"]⟩]⟩]).collation_matrix
        = [[1, 0, 1/2], [0, 1, 1/2]] := by
  refine ⟨?_, ?_, ?_⟩ <;>
    simp [read_units, merge_unit, parse_app, pass1, pass1step, pass2step, distribute,
      addCoefficients, alSet, alGet, alGetD, rdg_label, TEI.get_base_wit, pyStripChars,
      dropLeading, dropTrailing, teiLoop, str, resolveAmbiguous, collectResolved, crStep,
      teiPossible, pySplitOn, endsWith, beginsWith, assemble, rows_by_reading,
      cols_by_witness, indexDictFrom, zerosMatrix, setEntry]

theorem pass1_ignored_fold (cfg : Config) (appid : Str) :
    ∀ (rs : List Rdg) (acc : List (Str × Str) × List Str),
      (∀ r ∈ rs, r.rdg_type ∈ cfg.ignored_reading_types) →
      rs.foldl (pass1step cfg appid) acc = acc := by
  intro rs
  induction rs with
  | nil => intro acc _; rfl
  | cons r t ih =>
    intro acc h
    rw [List.foldl_cons, pass1step, if_pos (Or.inl (h r (List.mem_cons_self r t)))]
    exact ih acc (fun q hq => h q (List.mem_cons_of_mem _ hq))

theorem pass2_ignored_fold (cfg : Config) (appid : Str) (lookup : List (Str × Str)) :
    ∀ (rs : List Rdg) (st : List (Str × ℚ) × List (Str × List (Str × ℚ))),
      (∀ r ∈ rs, r.rdg_type ∈ cfg.ignored_reading_types) →
      rs.foldl (pass2step cfg appid lookup) st = st := by
  intro rs
  induction rs with
  | nil => intro st _; rfl
  | cons r t ih =>
    intro st h
    rw [List.foldl_cons, pass2step, if_pos (h r (List.mem_cons_self r t))]
    exact ih st (fun q hq => h q (List.mem_cons_of_mem _ hq))

theorem addCoefficients_nil (m : List (Str × ℚ)) : addCoefficients [] m = m := rfl

theorem alGet_alSet_isSome {β : Type} (m : List (Str × β)) (k k' : Str) (v : β)
    (h : (alGet m k).isSome) : (alGet (alSet m k' v) k).isSome := by
  rw [alGet_alSet]
  by_cases hk : k' = k
  · rw [if_pos hk]; rfl
  · rw [if_neg hk]; exact h

theorem distribute_preserves_isSome (S : List Str) (coeffs : List (Str × ℚ)) :
    ∀ (ws : List Str) (rbw : List (Str × List (Str × ℚ))) (k : Str),
      (alGet rbw k).isSome → (alGet (distribute S coeffs rbw ws) k).isSome := by
  intro ws
  induction ws with
  | nil => intro rbw k h; exact h
  | cons w t ih =>
    intro rbw k h
    have hstep : distribute S coeffs rbw (w :: t) =
        distribute S coeffs (alSet rbw (TEI.get_base_wit S w)
          (addCoefficients coeffs (alGetD rbw (TEI.get_base_wit S w) []))) t := rfl
    rw [hstep]
    exact ih _ k (alGet_alSet_isSome _ _ _ _ h)

theorem distribute_nil_coeffs (S : List Str) :
    ∀ (ws : List Str) (rbw : List (Str × List (Str × ℚ))),
      (∀ k, alGet rbw k = none ∨ alGet rbw k = some []) →
      (∀ k, alGet (distribute S [] rbw ws) k = none ∨
        alGet (distribute S [] rbw ws) k = some []) ∧
      (∀ w ∈ ws, alGet (distribute S [] rbw ws) (TEI.get_base_wit S w) = some []) := by
  intro ws
  induction ws with
  | nil => intro rbw hinv; exact ⟨hinv, by simp⟩
  | cons w t ih =>
    intro rbw hinv
    have hgd : alGetD rbw (TEI.get_base_wit S w) [] = [] := by
      rcases hinv (TEI.get_base_wit S w) with h | h <;> simp [alGetD, h]
    have hstep : distribute S [] rbw (w :: t) =
        distribute S [] (alSet rbw (TEI.get_base_wit S w) []) t := by
      rw [show distribute S [] rbw (w :: t) =
          distribute S [] (alSet rbw (TEI.get_base_wit S w)
            (addCoefficients [] (alGetD rbw (TEI.get_base_wit S w) []))) t from rfl,
        addCoefficients_nil, hgd]
    have hinv2 : ∀ k, alGet (alSet rbw (TEI.get_base_wit S w) []) k = none ∨
        alGet (alSet rbw (TEI.get_base_wit S w) []) k = some [] := by
      intro k
      rw [alGet_alSet]
      by_cases hk : TEI.get_base_wit S w = k
      · rw [if_pos hk]; right; rfl
      · rw [if_neg hk]; exact hinv k
    obtain ⟨ha, hb⟩ := ih _ hinv2
    refine ⟨by rw [hstep]; exact ha, ?_⟩
    intro w' hw'
    rcases List.mem_cons.mp hw' with he | hm
    · subst he
      rw [hstep]
      have hpres : (alGet (distribute S [] (alSet rbw (TEI.get_base_wit S w') []) t)
          (TEI.get_base_wit S w')).isSome := by
        apply distribute_preserves_isSome
        rw [alGet_alSet_self]
        rfl
      rcases ha (TEI.get_base_wit S w') with h0 | h0
      · rw [h0] at hpres; exact absurd hpres (by simp)
      · exact h0
    · rw [hstep]; exact hb w' hm

/-- C10: when the first non-ignored candidate of a unit is of a trivial type
and carries witnesses, parse_app still registers every one of its base
witnesses with an empty coefficient dict (the second-pass coefficients dict
is still the initial empty dict of line 223, and lines 261-263 create the
entry before any coefficient is added); consequently, in the concrete
two-unit document C10trivApp/C10substApp, witness w9 — which supports no
retained reading anywhere — becomes the first column of the raw collation
matrix, and that column is all zero. -/
theorem C10_theorem (cfg : Config) (aid n0 x0 ttype : Str) (pre : List Rdg)
    (ws : List Str)
    (hpre : ∀ r ∈ pre, r.rdg_type ∈ cfg.ignored_reading_types)
    (h3 : ttype ∈ cfg.trivial_reading_types) (h4 : ttype ∉ cfg.ignored_reading_types) :
    (∀ w ∈ ws,
      alGet (parse_app cfg ⟨aid, pre ++ [⟨ttype, n0, x0, some ws⟩]⟩).2
        (TEI.get_base_wit cfg.subwitness_suffixes w) = some []) ∧
    (read_units C10cfg (95/100) [C10trivApp, C10substApp]).witnesses
        = [str "w9", str "w1"] ∧
    (read_units C10cfg (95/100) [C10trivApp, C10substApp]).collation_matrix
        = [[0, 1]] := by
  refine ⟨?_, ?_, ?_⟩
  · intro w hw
    have hstep : ∀ lk : List (Str × Str),
        pass2step cfg aid lk ([], []) ⟨ttype, n0, x0, some ws⟩ =
          ([], distribute cfg.subwitness_suffixes [] [] ws) := by
      intro lk
      simp only [pass2step]
      rw [if_neg h4, if_pos h3, if_neg (fun hc => absurd h3 hc.1)]
    have hfold : ∀ lk : List (Str × Str),
        ((pre ++ [(⟨ttype, n0, x0, some ws⟩ : Rdg)]).foldl
          (pass2step cfg aid lk) ([], [])).2 =
          distribute cfg.subwitness_suffixes [] [] ws := by
      intro lk
      rw [List.foldl_append, pass2_ignored_fold cfg aid lk pre ([], []) hpre,
        List.foldl_cons, List.foldl_nil, hstep]
    have h2 : (parse_app cfg ⟨aid, pre ++ [⟨ttype, n0, x0, some ws⟩]⟩).2 =
        distribute cfg.subwitness_suffixes [] [] ws := by
      rw [parse_app]
      exact hfold _
    rw [h2]
    obtain ⟨_, hb⟩ := distribute_nil_coeffs cfg.subwitness_suffixes ws []
      (fun k => Or.inl rfl)
    exact hb w hw
  · simp [read_units, merge_unit, parse_app, pass1, pass1step, pass2step, distribute,
      addCoefficients, alSet, alGet, alGetD, rdg_label, TEI.get_base_wit, pyStripChars,
      dropLeading, dropTrailing, teiLoop, str, resolveAmbiguous, collectResolved, crStep,
      teiPossible, pySplitOn, endsWith, beginsWith, C10cfg, C10trivApp, C10substApp]
  · simp [read_units, merge_unit, parse_app, pass1, pass1step, pass2step, distribute,
      addCoefficients, alSet, alGet, alGetD, rdg_label, TEI.get_base_wit, pyStripChars,
      dropLeading, dropTrailing, teiLoop, str, resolveAmbiguous, collectResolved, crStep,
      teiPossible, pySplitOn, endsWith, beginsWith, assemble, rows_by_reading,
      cols_by_witness, indexDictFrom, zerosMatrix, setEntry, C10cfg, C10trivApp,
      C10substApp]

theorem C10_witness :
    alGet (parse_app C10cfg ⟨str "u1",
        [⟨str "defective", str "1f", str "ax", some [str "w9"]⟩]⟩).2
      (TEI.get_base_wit C10cfg.subwitness_suffixes (str "w9")) = some [] :=
  (C10_theorem C10cfg (str "u1") (str "1f") (str "ax") (str "defective") [] [str "w9"]
    (fun r hr => absurd hr (List.not_mem_nil r)) (by decide) (by decide)).1
    (str "w9") (by decide)

/-- C1 (counterexample): the support of a trivial-type candidate is not
discarded.  In a unit whose substantive reading 1 (label "u1 1 a") is
supported by w1 and whose defective reading 1f is supported only by w2, the
parser assigns w2 the coefficient 1 for reading "u1 1 a": the trivial
witness list of the trivial candidate contributes to the coefficients of the
previous substantive reading, contradicting the claim that no coefficients are emitted for
it. -/
theorem C1_counterexample :
    alGetD (alGetD (parse_app ⟨[], [], [str "defective"], []⟩
        ⟨str "u1", [⟨str "", str "1", str "a", some [str "w1"]⟩,
                    ⟨str "defective", str "1f", str "af", some [str "w2"]⟩]⟩).2
      (str "w2") []) (str "u1 1 a") 0 = 1 := by
  simp [parse_app, pass1, pass1step, pass2step, distribute, addCoefficients,
    alSet, alGet, alGetD, rdg_label, TEI.get_base_wit, pyStripChars, dropLeading,
    dropTrailing, teiLoop, str, resolveAmbiguous, collectResolved, crStep, teiPossible,
    pySplitOn, endsWith, beginsWith]

/-- C1 (amended): a non-ignored trivial-type candidate distributes to its
witnesses the coefficients dict carried over from the most recent preceding
non-ignored, non-trivial candidate — the collapse into the previous
substantive reading announced by the comment on line 24 — rather than
emitting nothing.  Concretely, in a unit consisting of a substantive
candidate supported by w1 followed by a trivial candidate supported by w2,
the base witness of w2 receives coefficient 1 for the substantive reading's
label.  (Only when no such preceding candidate exists, as in C10, is the
carried dict empty.) -/
theorem C1_amended (cfg : Config) (aid n1 x1 w1 n2 x2 w2 sts ttype : Str)
    (h0 : sts ∉ cfg.ignored_reading_types) (h1 : sts ∉ cfg.trivial_reading_types)
    (h2 : sts ≠ str "ambiguous")
    (h3 : ttype ∈ cfg.trivial_reading_types) (h4 : ttype ∉ cfg.ignored_reading_types)
    (h5 : TEI.get_base_wit cfg.subwitness_suffixes w2 ≠
      TEI.get_base_wit cfg.subwitness_suffixes w1) :
    alGet (parse_app cfg
        ⟨aid, [⟨sts, n1, x1, some [w1]⟩, ⟨ttype, n2, x2, some [w2]⟩]⟩).2
      (TEI.get_base_wit cfg.subwitness_suffixes w2) =
    some [(rdg_label aid ⟨sts, n1, x1, some [w1]⟩, 1)] := by
  simp only [parse_app]
  rw [show ([⟨sts, n1, x1, some [w1]⟩, ⟨ttype, n2, x2, some [w2]⟩] : List Rdg).foldl
      (pass2step cfg aid (pass1 cfg aid
        [⟨sts, n1, x1, some [w1]⟩, ⟨ttype, n2, x2, some [w2]⟩]).1) ([], []) =
      pass2step cfg aid _ (pass2step cfg aid _ ([], []) ⟨sts, n1, x1, some [w1]⟩)
        ⟨ttype, n2, x2, some [w2]⟩ from rfl]
  have hstep1 : pass2step cfg aid (pass1 cfg aid
      [⟨sts, n1, x1, some [w1]⟩, ⟨ttype, n2, x2, some [w2]⟩]).1 ([], [])
      ⟨sts, n1, x1, some [w1]⟩ =
      ([(rdg_label aid ⟨sts, n1, x1, some [w1]⟩, 1)],
       [(TEI.get_base_wit cfg.subwitness_suffixes w1,
         [(rdg_label aid ⟨sts, n1, x1, some [w1]⟩, 1)])]) := by
    simp only [pass2step]
    rw [if_neg h0, if_neg h1, if_neg h2, if_neg (fun hc => h2 hc.2.1)]
    simp [distribute, addCoefficients, alSet, alGet, alGetD]
  rw [hstep1]
  have hstep2 : pass2step cfg aid (pass1 cfg aid
      [⟨sts, n1, x1, some [w1]⟩, ⟨ttype, n2, x2, some [w2]⟩]).1
      ([(rdg_label aid ⟨sts, n1, x1, some [w1]⟩, 1)],
       [(TEI.get_base_wit cfg.subwitness_suffixes w1,
         [(rdg_label aid ⟨sts, n1, x1, some [w1]⟩, 1)])])
      ⟨ttype, n2, x2, some [w2]⟩ =
      ([(rdg_label aid ⟨sts, n1, x1, some [w1]⟩, 1)],
       [(TEI.get_base_wit cfg.subwitness_suffixes w1,
         [(rdg_label aid ⟨sts, n1, x1, some [w1]⟩, 1)]),
        (TEI.get_base_wit cfg.subwitness_suffixes w2,
         [(rdg_label aid ⟨sts, n1, x1, some [w1]⟩, 1)])]) := by
    simp only [pass2step]
    rw [if_neg h4, if_pos h3, if_neg (fun hc => absurd h3 hc.1)]
    simp [distribute, addCoefficients, alSet, alGet, alGetD, h5, Ne.symm h5]
  rw [hstep2]
  rw [alGet, if_neg (Ne.symm h5), alGet, if_pos rfl]

theorem C1_amended_witness :
    alGet (parse_app ⟨[], [], [str "defective"], []⟩
        ⟨str "u1", [⟨str "", str "1", str "a", some [str "w1"]⟩,
                    ⟨str "defective", str "1f", str "af", some [str "w2"]⟩]⟩).2
      (TEI.get_base_wit [] (str "w2")) =
    some [(rdg_label (str "u1") ⟨str "", str "1", str "a", some [str "w1"]⟩, 1)] :=
  C1_amended ⟨[], [], [str "defective"], []⟩ (str "u1") (str "1") (str "a") (str "w1")
    (str "1f") (str "af") (str "w2") (str "") (str "defective")
    (by decide) (by decide) (by decide) (by decide) (by decide) (by decide)
